import Mathlib

/-!
Verification of the lockfile subsystem of rpmoci (`src/lockfile/mod.rs`).

The Rust data model is embedded shallowly:

* `BTreeSet<T>` is modelled as a `List T` kept in strictly increasing order
  (the canonical iteration order of a B-tree set); insertion (`setInsert`) and
  collection (`setOfList`) mirror `BTreeSet::insert` / `collect`.
* `BTreeMap<K, V>` is modelled as a `List (K × V)` with strictly increasing
  keys; `mapInsert`, `mapOfList`, `mapRemove` mirror the `BTreeMap` API used
  by the source (`collect` with last-value-wins semantics, `remove`).
* Derived Rust `Ord` instances are modelled by the `LtOrd` class: a boolean
  strict-order comparator, lexicographic on struct fields in declaration
  order, exactly as `#[derive(PartialOrd, Ord)]` produces.  Rust compares
  `String`s by UTF-8 bytes, which coincides with comparing their scalar-value
  (character) sequences lexicographically, so `String` is compared through
  its character list.
* fallible Rust functions returning `anyhow::Result` are modelled with
  `Except RpmError`.
-/

namespace Rpmoci

/-- Error type standing in for `anyhow::Error`; only its presence matters. -/
abbrev RpmError := String

/-- A boolean strict linear order, as produced by Rust `#[derive(Ord)]`:
`ltb a b` models `a < b`. -/
class LtOrd (α : Type) where
  ltb : α → α → Bool
  asymm : ∀ a b, ltb a b = true → ltb b a = false
  lt_trans : ∀ a b c, ltb a b = true → ltb b c = true → ltb a c = true
  conn : ∀ a b, ltb a b = false → ltb b a = false → a = b

/-- Pull back a strict order along an injective key function, the way a Rust
derived `Ord` compares a struct through the tuple of its fields. -/
def LtOrd.pullback {α β : Type} [LtOrd β] (f : α → β) (hf : Function.Injective f) :
    LtOrd α where
  ltb a b := LtOrd.ltb (f a) (f b)
  asymm a b h := LtOrd.asymm (f a) (f b) h
  lt_trans a b c h₁ h₂ := LtOrd.lt_trans (f a) (f b) (f c) h₁ h₂
  conn a b h₁ h₂ := hf (LtOrd.conn (f a) (f b) h₁ h₂)

instance : LtOrd Nat where
  ltb := Nat.blt
  asymm a b h := by
    rw [Nat.blt_eq] at h
    rw [← Bool.not_eq_true, Nat.blt_eq]
    omega
  lt_trans a b c h₁ h₂ := by
    rw [Nat.blt_eq] at h₁ h₂
    rw [Nat.blt_eq]
    omega
  conn a b h₁ h₂ := by
    rw [← Bool.not_eq_true, Nat.blt_eq] at h₁ h₂
    omega

instance : LtOrd Char :=
  LtOrd.pullback Char.toNat
    (fun _ _ h => Char.ext (UInt32.val_injective (Fin.val_injective h)))

instance {α β : Type} [LtOrd α] [LtOrd β] [DecidableEq α] : LtOrd (α × β) where
  ltb p q := LtOrd.ltb p.1 q.1 || (decide (p.1 = q.1) && LtOrd.ltb p.2 q.2)
  asymm p q h := by
    obtain ⟨p₁, p₂⟩ := p
    obtain ⟨q₁, q₂⟩ := q
    simp only [Bool.or_eq_true, Bool.and_eq_true, decide_eq_true_eq] at h
    rcases h with h | ⟨he, h⟩
    · have h₁ := LtOrd.asymm _ _ h
      have h₂ : ¬ (q₁ = p₁) := by
        intro hq
        subst hq
        rw [h₁] at h
        exact Bool.noConfusion h
      simp [h₁, h₂]
    · subst he
      have h₁ : LtOrd.ltb p₁ p₁ = false := by
        cases hq : LtOrd.ltb p₁ p₁
        · rfl
        · rw [← hq]
          exact LtOrd.asymm _ _ hq
      simp [h₁, LtOrd.asymm _ _ h]
  lt_trans p q r h₁ h₂ := by
    obtain ⟨p₁, p₂⟩ := p
    obtain ⟨q₁, q₂⟩ := q
    obtain ⟨r₁, r₂⟩ := r
    simp only [Bool.or_eq_true, Bool.and_eq_true, decide_eq_true_eq] at h₁ h₂ ⊢
    rcases h₁ with h₁ | ⟨he₁, h₁⟩ <;> rcases h₂ with h₂ | ⟨he₂, h₂⟩
    · exact Or.inl (LtOrd.lt_trans _ _ _ h₁ h₂)
    · exact Or.inl (he₂ ▸ h₁)
    · exact Or.inl (he₁ ▸ h₂)
    · exact Or.inr ⟨he₁.trans he₂, LtOrd.lt_trans _ _ _ h₁ h₂⟩
  conn p q h₁ h₂ := by
    obtain ⟨p₁, p₂⟩ := p
    obtain ⟨q₁, q₂⟩ := q
    by_cases hpq : LtOrd.ltb p₁ q₁ = true
    · simp [hpq] at h₁
    · by_cases hqp : LtOrd.ltb q₁ p₁ = true
      · simp [hqp] at h₂
      · have he : p₁ = q₁ := LtOrd.conn _ _ (by simpa using hpq) (by simpa using hqp)
        subst he
        simp [hpq] at h₁ h₂
        exact congrArg (Prod.mk p₁) (LtOrd.conn _ _ h₁ h₂)

/-- Rust `Option<T>` derived ordering: `None` sorts before `Some`. -/
instance {α : Type} [LtOrd α] : LtOrd (Option α) where
  ltb a b :=
    match a, b with
    | none, none => false
    | none, some _ => true
    | some _, none => false
    | some x, some y => LtOrd.ltb x y
  asymm a b h := by
    match a, b with
    | none, none => exact Bool.noConfusion h
    | none, some _ => rfl
    | some _, none => exact Bool.noConfusion h
    | some x, some y => exact LtOrd.asymm x y h
  lt_trans a b c h₁ h₂ := by
    match a, b, c with
    | none, none, _ => exact Bool.noConfusion h₁
    | some _, none, _ => exact Bool.noConfusion h₁
    | none, some _, none => exact Bool.noConfusion h₂
    | none, some _, some _ => rfl
    | some _, some _, none => exact Bool.noConfusion h₂
    | some x, some y, some z => exact LtOrd.lt_trans x y z h₁ h₂
  conn a b h₁ h₂ := by
    match a, b with
    | none, none => rfl
    | none, some _ => exact Bool.noConfusion h₁
    | some _, none => exact Bool.noConfusion h₂
    | some x, some y => exact congrArg some (LtOrd.conn x y h₁ h₂)

/-- Lexicographic comparison of lists, as Rust derives `Ord` for `Vec<T>`:
elementwise, with a strict prefix sorting first. -/
def listLtb {α : Type} [LtOrd α] : List α → List α → Bool
  | [], [] => false
  | [], _ :: _ => true
  | _ :: _, [] => false
  | a :: as, b :: bs =>
    if LtOrd.ltb a b then true
    else if LtOrd.ltb b a then false
    else listLtb as bs

instance {α : Type} [LtOrd α] : LtOrd (List α) where
  ltb := listLtb
  asymm l₁ l₂ h := by
    induction l₁ generalizing l₂ with
    | nil =>
      cases l₂ with
      | nil => exact Bool.noConfusion h
      | cons b bs => rfl
    | cons a as ih =>
      cases l₂ with
      | nil => exact Bool.noConfusion h
      | cons b bs =>
        simp only [listLtb] at h ⊢
        by_cases hab : LtOrd.ltb a b = true
        · have hba := LtOrd.asymm _ _ hab
          simp [hab, hba]
        · by_cases hba : LtOrd.ltb b a = true
          · simp [hab, hba] at h
          · simp [hab, hba] at h ⊢
            exact ih bs h
  lt_trans l₁ l₂ l₃ h₁ h₂ := by
    induction l₁ generalizing l₂ l₃ with
    | nil =>
      cases l₂ with
      | nil => exact Bool.noConfusion h₁
      | cons b bs =>
        cases l₃ with
        | nil => exact Bool.noConfusion h₂
        | cons c cs => rfl
    | cons a as ih =>
      cases l₂ with
      | nil => exact Bool.noConfusion h₁
      | cons b bs =>
        cases l₃ with
        | nil => exact Bool.noConfusion h₂
        | cons c cs =>
          simp only [listLtb] at h₁ h₂ ⊢
          by_cases hab : LtOrd.ltb a b = true
          · by_cases hbc : LtOrd.ltb b c = true
            · simp [LtOrd.lt_trans _ _ _ hab hbc]
            · by_cases hcb : LtOrd.ltb c b = true
              · simp [hbc, hcb] at h₂
              · have hbceq : b = c := LtOrd.conn _ _ (by simpa using hbc) (by simpa using hcb)
                subst hbceq
                simp [hab]
          · by_cases hba : LtOrd.ltb b a = true
            · simp [hab, hba] at h₁
            · have haeq : a = b := LtOrd.conn _ _ (by simpa using hab) (by simpa using hba)
              subst haeq
              simp [hab] at h₁
              by_cases hac : LtOrd.ltb a c = true
              · simp [hac]
              · by_cases hca : LtOrd.ltb c a = true
                · simp [hac, hca] at h₂
                · simp [hac, hca] at h₂ ⊢
                  exact ih bs cs h₁ h₂
  conn l₁ l₂ h₁ h₂ := by
    induction l₁ generalizing l₂ with
    | nil =>
      cases l₂ with
      | nil => rfl
      | cons b bs => exact Bool.noConfusion h₁
    | cons a as ih =>
      cases l₂ with
      | nil => exact Bool.noConfusion h₂
      | cons b bs =>
        simp only [listLtb] at h₁ h₂
        by_cases hab : LtOrd.ltb a b = true
        · simp [hab] at h₁
        · by_cases hba : LtOrd.ltb b a = true
          · simp [hba] at h₂
          · have he : a = b := LtOrd.conn _ _ (by simpa using hab) (by simpa using hba)
            subst he
            simp [hab] at h₁ h₂
            exact congrArg (List.cons a) (ih bs h₁ h₂)

instance : LtOrd String :=
  LtOrd.pullback String.data
    (fun s t h => by cases s; cases t; exact congrArg String.mk h)

/-- A GPG key-source URL (`url::Url`).  URLs are kept opaque: the lockfile
only ever compares and (de)serializes them through their string form. -/
abbrev Url := String

/-- Algorithms supported by RPM for checksums. -/
inductive Algorithm : Type where
  | md5
  | sha1
  | sha256
  | sha384
  | sha512
  deriving DecidableEq

/-- Position of a variant in the Rust `enum Algorithm` declaration; the
derived `Ord` compares variants by this discriminant. -/
def Algorithm.toIdx : Algorithm → Nat
  | .md5 => 0
  | .sha1 => 1
  | .sha256 => 2
  | .sha384 => 3
  | .sha512 => 4

instance : LtOrd Algorithm :=
  LtOrd.pullback Algorithm.toIdx
    (fun a b h => by cases a <;> cases b <;> simp_all [Algorithm.toIdx])

/-- Serialized (serde `rename_all = "lowercase"`) name of an algorithm; the
`Display` implementation prints the same strings. -/
def Algorithm.serialize : Algorithm → String
  | .md5 => "md5"
  | .sha1 => "sha1"
  | .sha256 => "sha256"
  | .sha384 => "sha384"
  | .sha512 => "sha512"

/-- Checksum of an RPM package. -/
structure Checksum : Type where
  algorithm : Algorithm
  checksum : String
  deriving DecidableEq

instance : LtOrd Checksum :=
  LtOrd.pullback (fun c => (c.algorithm, c.checksum))
    (fun c d h => by
      cases c
      cases d
      simpa [Prod.mk.injEq, Checksum.mk.injEq] using h)

/-- A resolved package.  `arch` is optional to support older lockfiles. -/
structure Package : Type where
  name : String
  evr : String
  checksum : Checksum
  repoid : String
  arch : Option String
  deriving DecidableEq

instance : LtOrd Package :=
  LtOrd.pullback (fun p => (p.name, p.evr, p.checksum, p.repoid, p.arch))
    (fun p q h => by
      cases p
      cases q
      simpa [Prod.mk.injEq, Package.mk.injEq] using h)

/-- A package that the user has specified locally.  The lockfile stores
neither the package version nor its path - only its name and RPM requires. -/
structure LocalPackage : Type where
  name : String
  requires : List String
  deriving DecidableEq

instance : LtOrd LocalPackage :=
  LtOrd.pullback (fun p => (p.name, p.requires))
    (fun p q h => by
      cases p
      cases q
      simpa [Prod.mk.injEq, LocalPackage.mk.injEq] using h)

/-- GPG key configuration for a specified repository. -/
structure RepoKeyInfo : Type where
  gpgcheck : Bool
  keys : List String
  deriving DecidableEq

/-- Represents an rpmoci lockfile.  `packages` and `local_packages` model
`BTreeSet`s (strictly sorted lists), `repo_gpg_config` models a `BTreeMap`
(list with strictly sorted keys). -/
structure Lockfile : Type where
  pkg_specs : List String
  packages : List Package
  local_packages : List LocalPackage
  repo_gpg_config : List (String × RepoKeyInfo)
  global_key_specs : List Url
  deriving DecidableEq

/-- Modelled from the spec: the declared configuration (`Config::contents`)
exposes the ordered package-spec list and the ordered global GPG key-source
URL list; `config.rs` is outside the examined source. -/
structure ConfigContents : Type where
  packages : List String
  gpgkeys : List Url
  deriving DecidableEq

/-- Modelled from the spec: the declared configuration read from
`rpmoci.toml`; only `contents` is consulted by the lockfile module. -/
structure Config : Type where
  contents : ConfigContents
  deriving DecidableEq

/-- The strict-order proposition underlying an `LtOrd` comparator. -/
def ltProp {α : Type} [LtOrd α] (a b : α) : Prop :=
  LtOrd.ltb a b = true

/-- `BTreeSet::insert` on the sorted-list model: place the element at its
ordered position, keeping the existing element when an equal one is present. -/
def setInsert {α : Type} [LtOrd α] [DecidableEq α] (a : α) : List α → List α
  | [] => [a]
  | x :: xs =>
    if LtOrd.ltb a x then a :: x :: xs
    else if a = x then x :: xs
    else x :: setInsert a xs

/-- `collect::<BTreeSet<_>>()`: fold the elements into an initially empty
set in iteration order. -/
def setOfList {α : Type} [LtOrd α] [DecidableEq α] (l : List α) : List α :=
  l.foldl (fun s a => setInsert a s) []

/-- The well-formedness invariant of the sorted-list model of `BTreeSet`:
adjacent elements strictly increase. -/
def isSorted {α : Type} [LtOrd α] : List α → Bool
  | [] => true
  | [_] => true
  | a :: b :: rest => LtOrd.ltb a b && isSorted (b :: rest)

/-- `BTreeMap::insert` on the sorted-association-list model: the new value
replaces any existing value at an equal key. -/
def mapInsert {α β : Type} [LtOrd α] [DecidableEq α] (k : α) (v : β) :
    List (α × β) → List (α × β)
  | [] => [(k, v)]
  | (k', v') :: rest =>
    if LtOrd.ltb k k' then (k, v) :: (k', v') :: rest
    else if k = k' then (k, v) :: rest
    else (k', v') :: mapInsert k v rest

/-- `collect::<BTreeMap<_, _>>()`: fold the pairs into an initially empty
map in iteration order, so a later pair overwrites an earlier equal key. -/
def mapOfList {α β : Type} [LtOrd α] [DecidableEq α] (l : List (α × β)) :
    List (α × β) :=
  l.foldl (fun m e => mapInsert e.1 e.2 m) []

/-- `BTreeMap` lookup on the association-list model. -/
def mapLookup {α β : Type} [DecidableEq α] (k : α) : List (α × β) → Option β
  | [] => none
  | (k', v) :: rest => if k = k' then some v else mapLookup k rest

/-- `BTreeMap::remove`: take the entry for `k` out of the map, returning its
value and the remaining map, or `none` when the key is absent. -/
def mapRemove {α β : Type} [DecidableEq α] (k : α) :
    List (α × β) → Option (β × List (α × β))
  | [] => none
  | (k', v) :: rest =>
    if k = k' then some (v, rest)
    else
      match mapRemove k rest with
      | none => none
      | some (w, rest₂) => some (w, (k', v) :: rest₂)

/-- Keys of the association-list model of a `BTreeMap` strictly increase. -/
def keysSorted {α β : Type} [LtOrd α] (m : List (α × β)) : Bool :=
  isSorted (m.map Prod.fst)

/-- Returns true if the lockfile is compatible with the given configuration.
Local RPMs are not considered in this check:
`self.pkg_specs == cfg.contents.packages && self.global_key_specs == cfg.contents.gpgkeys`. -/
def Lockfile.is_compatible_excluding_local_rpms (self : Lockfile) (cfg : Config) : Bool :=
  self.pkg_specs == cfg.contents.packages && self.global_key_specs == cfg.contents.gpgkeys

/-- Returns true if the lockfile is compatible with the given configuration,
also verifying that dependencies of local RPMs match those in the lockfile.
`read_local_rpm_deps` is the outcome of `Self::read_local_rpm_deps(cfg)`
(defined outside the lockfile module): the recomputed requirement strings of
the local RPM inputs as a `BTreeSet<String>`, or a read/parse error.  The
function mirrors `Ok(self.is_compatible_excluding_local_rpms(cfg) &&
Self::read_local_rpm_deps(cfg)? == local_package_deps)`: `&&` short-circuits,
and `?` propagates the error. -/
def Lockfile.is_compatible_including_local_rpms (self : Lockfile) (cfg : Config)
    (read_local_rpm_deps : Except RpmError (List String)) : Except RpmError Bool :=
  let local_package_deps : List String :=
    setOfList ((self.local_packages.map LocalPackage.requires).flatten)
  if self.is_compatible_excluding_local_rpms cfg then
    match read_local_rpm_deps with
    | .error e => .error e
    | .ok deps => .ok (deps == local_package_deps)
  else
    .ok false

/-- One message emitted through `write::ok` by `print_updates`: the emphasized
status label together with the formatted message. -/
inductive UpdateLine : Type where
  | updating (name old_evr new_evr : String)
  | removing (name evr : String)
  | adding (name evr : String)
  deriving DecidableEq

/-- Rendering of an update line as the `(status, message)` pair passed to
`write::ok`, with the exact `format!` strings of the source. -/
def UpdateLine.render : UpdateLine → String × String
  | .updating name old_evr new_evr => ("Updating", s!"{name} {old_evr} -> {new_evr}")
  | .removing name evr => ("Removing", s!"{name} {evr}")
  | .adding name evr => ("Adding", s!"{name} {evr}")

/-- The package name an update line reports about. -/
def UpdateLine.lineName : UpdateLine → String
  | .updating name _ _ => name
  | .removing name _ => name
  | .adding name _ => name

/-- `packages.iter().map(|pkg| (&pkg.name, &pkg.evr)).collect::<BTreeMap<_, _>>()`. -/
def collectNameEvr (pkgs : List Package) : List (String × String) :=
  mapOfList (pkgs.map (fun pkg => (pkg.name, pkg.evr)))

/-- The `for (name, evr) in old` loop of `print_updates`: `old` entries are
processed in order, removing each matched name from `new`; the output lines
of the loop and the final state of `new` are returned. -/
def processOld :
    List (String × String) → List (String × String) →
    List UpdateLine × List (String × String)
  | [], m => ([], m)
  | (name, evr) :: rest, m =>
    match mapRemove name m with
    | some (new_evr, m') =>
      let r := processOld rest m'
      ((if new_evr ≠ evr then [.updating name evr new_evr] else []) ++ r.1, r.2)
    | none =>
      let r := processOld rest m
      (.removing name evr :: r.1, r.2)

/-- Print messages to stderr showing changes from a previous lockfile,
modelled as the list of emitted lines: build the name-to-evr maps of the new
and previous package sets, report updates/removals while draining matches
from `new`, then report every entry left in `new` as added. -/
def Lockfile.print_updates (self : Lockfile) (previous : Option Lockfile) :
    List UpdateLine :=
  let new := collectNameEvr self.packages
  let old :=
    match previous with
    | some prev => collectNameEvr prev.packages
    | none => []
  let r := processOld old new
  r.1 ++ r.2.map (fun e => .adding e.1 e.2)

/-- A TOML document value, the target of `toml::to_string_pretty` and the
source of lockfile loading; comments and key ordering of the concrete text
are irrelevant to (de)serialization and not modelled. -/
inductive Toml : Type where
  | str (s : String)
  | boolean (b : Bool)
  | arr (elems : List Toml)
  | table (fields : List (String × Toml))

/-- Serde serialization of `Checksum`. -/
def Checksum.encode (c : Checksum) : Toml :=
  .table [("algorithm", .str c.algorithm.serialize), ("checksum", .str c.checksum)]

/-- Serde serialization of `Package`: a `None` arch is omitted from the
table, since TOML has no null value. -/
def Package.encode (p : Package) : Toml :=
  .table ([("name", .str p.name), ("evr", .str p.evr),
           ("checksum", p.checksum.encode), ("repoid", .str p.repoid)] ++
    (match p.arch with
     | none => []
     | some a => [("arch", .str a)]))

/-- Serde serialization of `LocalPackage`. -/
def LocalPackage.encode (p : LocalPackage) : Toml :=
  .table [("name", .str p.name), ("requires", .arr (p.requires.map .str))]

/-- Serde serialization of `RepoKeyInfo`. -/
def RepoKeyInfo.encode (r : RepoKeyInfo) : Toml :=
  .table [("gpgcheck", .boolean r.gpgcheck), ("keys", .arr (r.keys.map .str))]

/-- Serde serialization of `Lockfile`: fields in declaration order, with the
`skip_serializing_if` attributes omitting empty `local_packages`,
`repo_gpg_config` and `global_key_specs`. -/
def Lockfile.encode (self : Lockfile) : Toml :=
  .table ([("pkg_specs", .arr (self.pkg_specs.map .str)),
           ("packages", .arr (self.packages.map Package.encode))] ++
    (if self.local_packages.isEmpty then []
     else [("local_packages", .arr (self.local_packages.map LocalPackage.encode))]) ++
    (if self.repo_gpg_config.isEmpty then []
     else [("repo_gpg_config",
            .table (self.repo_gpg_config.map (fun e => (e.1, e.2.encode))))]) ++
    (if self.global_key_specs.isEmpty then []
     else [("global_key_specs", .arr (self.global_key_specs.map .str))]))

/-- Modelled from the spec: decoding a TOML string value. -/
def decodeStr : Toml → Except RpmError String
  | .str s => .ok s
  | _ => .error "expected string"

/-- Modelled from the spec: decoding a TOML boolean value. -/
def decodeBool : Toml → Except RpmError Bool
  | .boolean b => .ok b
  | _ => .error "expected boolean"

/-- Modelled from the spec: serde decodes a sequence elementwise, propagating
the first failure. -/
def decodeElems {α : Type} (dec : Toml → Except RpmError α) :
    List Toml → Except RpmError (List α)
  | [] => .ok []
  | t :: ts =>
    match dec t with
    | .error e => .error e
    | .ok a =>
      match decodeElems dec ts with
      | .error e => .error e
      | .ok as => .ok (a :: as)

/-- Modelled from the spec: decoding a TOML array of strings. -/
def decodeStrList : Toml → Except RpmError (List String)
  | .arr elems => decodeElems decodeStr elems
  | _ => .error "expected array"

/-- Modelled from the spec: deserialization of `Algorithm` accepts exactly
the lowercase variant names. -/
def Algorithm.decode : Toml → Except RpmError Algorithm
  | .str "md5" => .ok .md5
  | .str "sha1" => .ok .sha1
  | .str "sha256" => .ok .sha256
  | .str "sha384" => .ok .sha384
  | .str "sha512" => .ok .sha512
  | _ => .error "unknown checksum algorithm"

/-- Modelled from the spec: deserialization of `Checksum` (field lookup by
name; both fields mandatory). -/
def Checksum.decode : Toml → Except RpmError Checksum
  | .table fields =>
    match mapLookup "algorithm" fields with
    | none => .error "missing field algorithm"
    | some ta =>
      match Algorithm.decode ta with
      | .error e => .error e
      | .ok alg =>
        match mapLookup "checksum" fields with
        | none => .error "missing field checksum"
        | some tc =>
          match decodeStr tc with
          | .error e => .error e
          | .ok s => .ok { algorithm := alg, checksum := s }
  | _ => .error "expected table"

/-- Modelled from the spec: deserialization of `Package`; `arch` carries
`#[serde(default)]`, so a missing `arch` field decodes to `none`. -/
def Package.decode : Toml → Except RpmError Package
  | .table fields =>
    match mapLookup "name" fields with
    | none => .error "missing field name"
    | some tn =>
      match decodeStr tn with
      | .error e => .error e
      | .ok n =>
        match mapLookup "evr" fields with
        | none => .error "missing field evr"
        | some te =>
          match decodeStr te with
          | .error e => .error e
          | .ok ev =>
            match mapLookup "checksum" fields with
            | none => .error "missing field checksum"
            | some tc =>
              match Checksum.decode tc with
              | .error e => .error e
              | .ok ck =>
                match mapLookup "repoid" fields with
                | none => .error "missing field repoid"
                | some tr =>
                  match decodeStr tr with
                  | .error e => .error e
                  | .ok rid =>
                    match mapLookup "arch" fields with
                    | none =>
                      .ok { name := n, evr := ev, checksum := ck,
                            repoid := rid, arch := none }
                    | some ta =>
                      match decodeStr ta with
                      | .error e => .error e
                      | .ok a =>
                        .ok { name := n, evr := ev, checksum := ck,
                              repoid := rid, arch := some a }
  | _ => .error "expected table"

/-- Modelled from the spec: deserialization of `LocalPackage`. -/
def LocalPackage.decode : Toml → Except RpmError LocalPackage
  | .table fields =>
    match mapLookup "name" fields with
    | none => .error "missing field name"
    | some tn =>
      match decodeStr tn with
      | .error e => .error e
      | .ok n =>
        match mapLookup "requires" fields with
        | none => .error "missing field requires"
        | some tr =>
          match decodeStrList tr with
          | .error e => .error e
          | .ok rs => .ok { name := n, requires := rs }
  | _ => .error "expected table"

/-- Modelled from the spec: deserialization of `RepoKeyInfo`. -/
def RepoKeyInfo.decode : Toml → Except RpmError RepoKeyInfo
  | .table fields =>
    match mapLookup "gpgcheck" fields with
    | none => .error "missing field gpgcheck"
    | some tg =>
      match decodeBool tg with
      | .error e => .error e
      | .ok g =>
        match mapLookup "keys" fields with
        | none => .error "missing field keys"
        | some tk =>
          match decodeStrList tk with
          | .error e => .error e
          | .ok ks => .ok { gpgcheck := g, keys := ks }
  | _ => .error "expected table"

/-- Modelled from the spec: serde decodes a TOML table into a
`BTreeMap<String, RepoKeyInfo>` by decoding each entry and inserting it. -/
def decodeGpgEntries :
    List (String × Toml) → Except RpmError (List (String × RepoKeyInfo))
  | [] => .ok []
  | (k, t) :: rest =>
    match RepoKeyInfo.decode t with
    | .error e => .error e
    | .ok r =>
      match decodeGpgEntries rest with
      | .error e => .error e
      | .ok rs => .ok ((k, r) :: rs)

/-- Modelled from the spec: loading a `Lockfile` from its persisted form.
`pkg_specs` and `packages` are mandatory; `local_packages`,
`repo_gpg_config` and `global_key_specs` carry `#[serde(default)]` and
decode to empty when absent.  Sets and maps are rebuilt by insertion. -/
def Lockfile.decode (t : Toml) : Except RpmError Lockfile :=
  match t with
  | .table fields =>
    match mapLookup "pkg_specs" fields with
    | none => .error "missing field pkg_specs"
    | some ts =>
      match decodeStrList ts with
      | .error e => .error e
      | .ok specs =>
        match mapLookup "packages" fields with
        | none => .error "missing field packages"
        | some tp =>
          match tp with
          | .arr pes =>
            match decodeElems Package.decode pes with
            | .error e => .error e
            | .ok pkgs =>
              match
                (match mapLookup "local_packages" fields with
                 | none => .ok []
                 | some (.arr les) => decodeElems LocalPackage.decode les
                 | some _ => .error "expected array" :
                   Except RpmError (List LocalPackage)) with
              | .error e => .error e
              | .ok lps =>
                match
                  (match mapLookup "repo_gpg_config" fields with
                   | none => .ok []
                   | some (.table ges) => decodeGpgEntries ges
                   | some _ => .error "expected table" :
                     Except RpmError (List (String × RepoKeyInfo))) with
                | .error e => .error e
                | .ok gpg =>
                  match
                    (match mapLookup "global_key_specs" fields with
                     | none => .ok []
                     | some tg => decodeStrList tg :
                       Except RpmError (List String)) with
                  | .error e => .error e
                  | .ok keys =>
                    .ok { pkg_specs := specs,
                          packages := setOfList pkgs,
                          local_packages := setOfList lps,
                          repo_gpg_config := mapOfList gpg,
                          global_key_specs := keys }
          | _ => .error "expected array"
  | _ => .error "expected table"

/-- Modelled from the spec: the crate name constant `NAME` (defined outside
the lockfile module); the generating tool is rpmoci. -/
def NAME : String := "rpmoci"

/-- `str::to_ascii_uppercase`: character-wise ASCII uppercasing (`NAME` is
pure ASCII, so byte-wise and character-wise uppercasing coincide). -/
def asciiUppercase (s : String) : String :=
  String.mk (s.data.map Char.toUpper)

/-- The generated-file header written before the serialized lockfile:
`format!("# This file is @generated by {}\n# It is not intended for manual editing.\n", NAME.to_ascii_uppercase())`. -/
def lockfileHeader : String :=
  "# This file is @generated by " ++ asciiUppercase NAME ++
    "\n# It is not intended for manual editing.\n"

/-- Write the lockfile to a file on disk, modelled as the file content
produced on success.  The outcomes of the four fallible steps are inputs, in
the order the source performs them: `File::create`, `write_all` of the
header, `toml::to_string_pretty(&self)`, and `write_all` of the body; each
`?` propagates the error of the step. -/
def Lockfile.write_to_file (_self : Lockfile)
    (create_result : Except RpmError Unit)
    (write_header_result : Except RpmError Unit)
    (serialize_result : Except RpmError String)
    (write_body_result : Except RpmError Unit) : Except RpmError String :=
  match create_result with
  | .error e => .error e
  | .ok _ =>
    match write_header_result with
    | .error e => .error e
    | .ok _ =>
      match serialize_result with
      | .error e => .error e
      | .ok body =>
        match write_body_result with
        | .error e => .error e
        | .ok _ => .ok (lockfileHeader ++ body)

/-- A sample checksum used by the concrete test lockfiles below. -/
def exampleChecksum : Checksum :=
  { algorithm := .sha256, checksum := "0123" }

/-- Previous lockfile of the worked `print_updates` example:
packages A@1.0 and B@2.0. -/
def examplePrev : Lockfile :=
  { pkg_specs := [],
    packages :=
      [{ name := "A", evr := "1.0", checksum := exampleChecksum, repoid := "r",
         arch := none },
       { name := "B", evr := "2.0", checksum := exampleChecksum, repoid := "r",
         arch := none }],
    local_packages := [], repo_gpg_config := [], global_key_specs := [] }

/-- New lockfile of the worked `print_updates` example:
packages A@1.1 and C@3.0. -/
def exampleNew : Lockfile :=
  { pkg_specs := [],
    packages :=
      [{ name := "A", evr := "1.1", checksum := exampleChecksum, repoid := "r",
         arch := none },
       { name := "C", evr := "3.0", checksum := exampleChecksum, repoid := "r",
         arch := none }],
    local_packages := [], repo_gpg_config := [], global_key_specs := [] }

/-- A declared configuration requesting the single spec `pkgA`. -/
def exampleConfig : Config :=
  { contents := { packages := ["pkgA"], gpgkeys := [] } }

/-- A lockfile whose `pkg_specs` does not match `exampleConfig`. -/
def exampleStaleLockfile : Lockfile :=
  { pkg_specs := [], packages := [], local_packages := [], repo_gpg_config := [],
    global_key_specs := [] }

/-- A lockfile compatible with `exampleConfig`, carrying one local package. -/
def exampleCompatLockfile : Lockfile :=
  { pkg_specs := ["pkgA"], packages := [],
    local_packages := [{ name := "mylib", requires := ["liba", "libb"] }],
    repo_gpg_config := [], global_key_specs := [] }

/-- A lockfile populating every field, for exercising the persistence
round-trip at a concrete value. -/
def exampleFullLockfile : Lockfile :=
  { pkg_specs := ["pkgA"],
    packages :=
      [{ name := "A", evr := "1.0", checksum := exampleChecksum, repoid := "r",
         arch := some "x86_64" }],
    local_packages := [{ name := "mylib", requires := ["liba"] }],
    repo_gpg_config := [("r", { gpgcheck := true, keys := ["KEY"] })],
    global_key_specs := ["https://example.invalid/key.asc"] }

/-- A lockfile whose package set holds two entries sharing the name `A`
(differing in evr), as the `BTreeSet` permits. -/
def exampleDupLockfile : Lockfile :=
  { pkg_specs := [],
    packages :=
      [{ name := "A", evr := "1.0", checksum := exampleChecksum, repoid := "r",
         arch := none },
       { name := "A", evr := "1.1", checksum := exampleChecksum, repoid := "r",
         arch := none }],
    local_packages := [], repo_gpg_config := [], global_key_specs := [] }

theorem ltb_irrefl {α : Type} [LtOrd α] (a : α) : LtOrd.ltb a a = false := by
  cases h : LtOrd.ltb a a
  · rfl
  · rw [← h]
    exact LtOrd.asymm _ _ h

theorem ne_of_ltb {α : Type} [LtOrd α] {a b : α} (h : LtOrd.ltb a b = true) : a ≠ b := by
  intro he
  subst he
  rw [ltb_irrefl] at h
  exact Bool.noConfusion h

theorem ltb_total {α : Type} [LtOrd α] {a b : α} (h : a ≠ b) :
    LtOrd.ltb a b = true ∨ LtOrd.ltb b a = true := by
  by_cases h₁ : LtOrd.ltb a b = true
  · exact Or.inl h₁
  · by_cases h₂ : LtOrd.ltb b a = true
    · exact Or.inr h₂
    · exact absurd (LtOrd.conn a b (by simpa using h₁) (by simpa using h₂)) h

theorem isSorted_iff_pairwise {α : Type} [LtOrd α] (l : List α) :
    isSorted l = true ↔ l.Pairwise ltProp := by
  induction l with
  | nil => simp [isSorted]
  | cons a l ih =>
    cases l with
    | nil => simp [isSorted]
    | cons b rest =>
      rw [isSorted, Bool.and_eq_true, ih]
      constructor
      · rintro ⟨hab, hrest⟩
        rcases List.pairwise_cons.mp hrest with ⟨hb, _⟩
        rw [List.pairwise_cons]
        refine ⟨?_, hrest⟩
        intro x hx
        rcases List.mem_cons.mp hx with h | h
        · exact h ▸ hab
        · exact LtOrd.lt_trans _ _ _ hab (hb x h)
      · intro hp
        rcases List.pairwise_cons.mp hp with ⟨ha, hrest⟩
        exact ⟨ha b (List.mem_cons_self b rest), hrest⟩

theorem mem_setInsert {α : Type} [LtOrd α] [DecidableEq α] (a b : α) (l : List α) :
    b ∈ setInsert a l ↔ b = a ∨ b ∈ l := by
  induction l with
  | nil => simp [setInsert]
  | cons x xs ih =>
    simp only [setInsert]
    by_cases h₁ : LtOrd.ltb a x = true
    · rw [if_pos h₁]
      simp [List.mem_cons]
    · by_cases h₂ : a = x
      · subst h₂
        rw [if_neg h₁, if_pos rfl]
        simp [List.mem_cons]
      · rw [if_neg h₁, if_neg h₂]
        simp [List.mem_cons, ih]
        tauto

theorem pairwise_setInsert {α : Type} [LtOrd α] [DecidableEq α] (a : α) (l : List α)
    (h : l.Pairwise ltProp) : (setInsert a l).Pairwise ltProp := by
  induction l with
  | nil => simp [setInsert, List.pairwise_cons]
  | cons x xs ih =>
    rcases List.pairwise_cons.mp h with ⟨hx, hxs⟩
    simp only [setInsert]
    by_cases h₁ : LtOrd.ltb a x = true
    · rw [if_pos h₁, List.pairwise_cons]
      refine ⟨?_, h⟩
      intro y hy
      rcases List.mem_cons.mp hy with hy | hy
      · exact hy ▸ h₁
      · exact LtOrd.lt_trans _ _ _ h₁ (hx y hy)
    · by_cases h₂ : a = x
      · subst h₂
        rw [if_neg h₁, if_pos rfl]
        exact h
      · rw [if_neg h₁, if_neg h₂, List.pairwise_cons]
        refine ⟨?_, ih hxs⟩
        intro y hy
        rcases (mem_setInsert a y xs).mp hy with hy | hy
        · subst hy
          rcases ltb_total h₂ with hl | hl
          · exact absurd hl h₁
          · exact hl
        · exact hx y hy

theorem setInsert_of_forall_ltb {α : Type} [LtOrd α] [DecidableEq α] (a : α)
    (l : List α) (h : ∀ x ∈ l, LtOrd.ltb x a = true) : setInsert a l = l ++ [a] := by
  induction l with
  | nil => rfl
  | cons x xs ih =>
    have hxa := h x (List.mem_cons_self x xs)
    have h₁ : ¬ (LtOrd.ltb a x = true) := by simp [LtOrd.asymm _ _ hxa]
    have h₂ : a ≠ x := (ne_of_ltb hxa).symm
    simp only [setInsert]
    rw [if_neg h₁, if_neg h₂, ih (fun y hy => h y (List.mem_cons_of_mem x hy))]
    rfl

theorem setFold_pairwise_mem {α : Type} [LtOrd α] [DecidableEq α] (l acc : List α)
    (hacc : acc.Pairwise ltProp) :
    (l.foldl (fun s a => setInsert a s) acc).Pairwise ltProp ∧
      (∀ b, b ∈ l.foldl (fun s a => setInsert a s) acc ↔ b ∈ l ∨ b ∈ acc) := by
  induction l generalizing acc with
  | nil => simpa using hacc
  | cons a l ih =>
    simp only [List.foldl_cons]
    obtain ⟨hp, hm⟩ := ih (setInsert a acc) (pairwise_setInsert _ _ hacc)
    refine ⟨hp, fun b => ?_⟩
    rw [hm b, mem_setInsert, List.mem_cons]
    tauto

theorem pairwise_setOfList {α : Type} [LtOrd α] [DecidableEq α] (l : List α) :
    (setOfList l).Pairwise ltProp :=
  (setFold_pairwise_mem l [] List.Pairwise.nil).1

theorem mem_setOfList {α : Type} [LtOrd α] [DecidableEq α] (l : List α) (b : α) :
    b ∈ setOfList l ↔ b ∈ l := by
  rw [setOfList]
  rw [(setFold_pairwise_mem l [] List.Pairwise.nil).2 b]
  simp

theorem sorted_ext {α : Type} [LtOrd α] :
    ∀ (l₁ l₂ : List α), l₁.Pairwise ltProp → l₂.Pairwise ltProp →
      (∀ a, a ∈ l₁ ↔ a ∈ l₂) → l₁ = l₂ := by
  intro l₁
  induction l₁ with
  | nil =>
    intro l₂ _ _ hm
    cases l₂ with
    | nil => rfl
    | cons b bs => exact absurd ((hm b).mpr (List.mem_cons_self b bs)) (List.not_mem_nil b)
  | cons a as ih =>
    intro l₂ h₁ h₂ hm
    cases l₂ with
    | nil => exact absurd ((hm a).mp (List.mem_cons_self a as)) (List.not_mem_nil a)
    | cons b bs =>
      rcases List.pairwise_cons.mp h₁ with ⟨ha, has⟩
      rcases List.pairwise_cons.mp h₂ with ⟨hb, hbs⟩
      have hab : a = b := by
        rcases List.mem_cons.mp ((hm a).mp (List.mem_cons_self a as)) with h | h
        · exact h
        · rcases List.mem_cons.mp ((hm b).mpr (List.mem_cons_self b bs)) with h' | h'
          · exact h'.symm
          · have hcontra := LtOrd.asymm _ _ (ha b h')
            rw [hb a h] at hcontra
            exact Bool.noConfusion hcontra
      subst hab
      have hm' : ∀ x, x ∈ as ↔ x ∈ bs := by
        intro x
        constructor
        · intro hx
          rcases List.mem_cons.mp ((hm x).mp (List.mem_cons_of_mem a hx)) with h | h
          · exact absurd h.symm (ne_of_ltb (ha x hx))
          · exact h
        · intro hx
          rcases List.mem_cons.mp ((hm x).mpr (List.mem_cons_of_mem a hx)) with h | h
          · exact absurd h.symm (ne_of_ltb (hb x hx))
          · exact h
      exact congrArg (a :: ·) (ih bs has hbs hm')

theorem setOfList_of_pairwise {α : Type} [LtOrd α] [DecidableEq α] (l : List α)
    (h : l.Pairwise ltProp) : setOfList l = l :=
  sorted_ext (setOfList l) l (pairwise_setOfList l) h (mem_setOfList l)

theorem mapLookup_eq_none_iff {α β : Type} [DecidableEq α] (k : α) (m : List (α × β)) :
    mapLookup k m = none ↔ k ∉ m.map Prod.fst := by
  induction m with
  | nil => simp [mapLookup]
  | cons e rest ih =>
    obtain ⟨k', v'⟩ := e
    simp only [mapLookup, List.map_cons, List.mem_cons]
    by_cases h : k = k'
    · simp [h]
    · simp [h, ih]

theorem mapLookup_mapInsert_self {α β : Type} [LtOrd α] [DecidableEq α] (k : α) (v : β)
    (m : List (α × β)) : mapLookup k (mapInsert k v m) = some v := by
  induction m with
  | nil => simp [mapInsert, mapLookup]
  | cons e rest ih =>
    obtain ⟨k', v'⟩ := e
    simp only [mapInsert]
    by_cases h₁ : LtOrd.ltb k k' = true
    · rw [if_pos h₁]
      simp [mapLookup]
    · by_cases h₂ : k = k'
      · rw [if_neg h₁, if_pos h₂]
        simp [mapLookup]
      · rw [if_neg h₁, if_neg h₂]
        simp [mapLookup, h₂, ih]

theorem mapLookup_mapInsert_ne {α β : Type} [LtOrd α] [DecidableEq α] {k k' : α}
    (v : β) (m : List (α × β)) (hne : k' ≠ k) :
    mapLookup k' (mapInsert k v m) = mapLookup k' m := by
  induction m with
  | nil => simp [mapInsert, mapLookup, hne]
  | cons e rest ih =>
    obtain ⟨k'', v''⟩ := e
    simp only [mapInsert]
    by_cases h₁ : LtOrd.ltb k k'' = true
    · rw [if_pos h₁]
      simp [mapLookup, hne]
    · by_cases h₂ : k = k''
      · rw [if_neg h₁, if_pos h₂]
        subst h₂
        simp [mapLookup, hne]
      · rw [if_neg h₁, if_neg h₂]
        simp only [mapLookup]
        by_cases h₃ : k' = k''
        · simp [h₃]
        · simp [h₃, ih]

theorem mem_mapInsert {α β : Type} [LtOrd α] [DecidableEq α] {e : α × β} {k : α} {v : β}
    {m : List (α × β)} (h : e ∈ mapInsert k v m) : e = (k, v) ∨ e ∈ m := by
  induction m with
  | nil => simpa [mapInsert] using h
  | cons x rest ih =>
    obtain ⟨k', v'⟩ := x
    simp only [mapInsert] at h
    by_cases h₁ : LtOrd.ltb k k' = true
    · rw [if_pos h₁] at h
      simpa [List.mem_cons] using h
    · by_cases h₂ : k = k'
      · rw [if_neg h₁, if_pos h₂] at h
        rcases List.mem_cons.mp h with h | h
        · exact Or.inl h
        · exact Or.inr (List.mem_cons_of_mem _ h)
      · rw [if_neg h₁, if_neg h₂] at h
        rcases List.mem_cons.mp h with h | h
        · exact Or.inr (h ▸ List.mem_cons_self _ _)
        · rcases ih h with h | h
          · exact Or.inl h
          · exact Or.inr (List.mem_cons_of_mem _ h)

theorem pairwiseKeys_mapInsert {α β : Type} [LtOrd α] [DecidableEq α] (k : α) (v : β)
    (m : List (α × β)) (h : m.Pairwise (fun e₁ e₂ => LtOrd.ltb e₁.1 e₂.1 = true)) :
    (mapInsert k v m).Pairwise (fun e₁ e₂ => LtOrd.ltb e₁.1 e₂.1 = true) := by
  induction m with
  | nil => simp [mapInsert]
  | cons x rest ih =>
    obtain ⟨k', v'⟩ := x
    rcases List.pairwise_cons.mp h with ⟨hx, hrest⟩
    simp only [mapInsert]
    by_cases h₁ : LtOrd.ltb k k' = true
    · rw [if_pos h₁, List.pairwise_cons]
      refine ⟨?_, h⟩
      intro e he
      rcases List.mem_cons.mp he with he | he
      · exact he ▸ h₁
      · exact LtOrd.lt_trans _ _ _ h₁ (hx e he)
    · by_cases h₂ : k = k'
      · rw [if_neg h₁, if_pos h₂, List.pairwise_cons]
        subst h₂
        exact ⟨hx, hrest⟩
      · rw [if_neg h₁, if_neg h₂, List.pairwise_cons]
        refine ⟨?_, ih hrest⟩
        intro e he
        rcases mem_mapInsert he with he | he
        · subst he
          rcases ltb_total h₂ with hl | hl
          · exact absurd hl h₁
          · exact hl
        · exact hx e he

theorem pairwiseKeys_mapOfList {α β : Type} [LtOrd α] [DecidableEq α]
    (l : List (α × β)) :
    (mapOfList l).Pairwise (fun e₁ e₂ => LtOrd.ltb e₁.1 e₂.1 = true) := by
  have aux : ∀ (l acc : List (α × β)),
      acc.Pairwise (fun e₁ e₂ => LtOrd.ltb e₁.1 e₂.1 = true) →
      (l.foldl (fun m e => mapInsert e.1 e.2 m) acc).Pairwise
        (fun e₁ e₂ => LtOrd.ltb e₁.1 e₂.1 = true) := by
    intro l
    induction l with
    | nil => intro acc hacc; simpa using hacc
    | cons e l ih =>
      intro acc hacc
      simp only [List.foldl_cons]
      exact ih (mapInsert e.1 e.2 acc) (pairwiseKeys_mapInsert e.1 e.2 acc hacc)
  exact aux l [] List.Pairwise.nil

theorem keysSorted_mapOfList {α β : Type} [LtOrd α] [DecidableEq α]
    (l : List (α × β)) : keysSorted (mapOfList l) = true := by
  rw [keysSorted, isSorted_iff_pairwise, List.pairwise_map]
  exact pairwiseKeys_mapOfList l

theorem nodupKeys_mapOfList {α β : Type} [LtOrd α] [DecidableEq α]
    (l : List (α × β)) : ((mapOfList l).map Prod.fst).Nodup := by
  have h := pairwiseKeys_mapOfList (β := β) l
  rw [List.Nodup, List.pairwise_map]
  exact h.imp (fun hlt => ne_of_ltb hlt)

theorem mapInsert_of_forall_ltb {α β : Type} [LtOrd α] [DecidableEq α] (k : α) (v : β)
    (m : List (α × β)) (h : ∀ e ∈ m, LtOrd.ltb e.1 k = true) :
    mapInsert k v m = m ++ [(k, v)] := by
  induction m with
  | nil => rfl
  | cons x rest ih =>
    have hxk := h x (List.mem_cons_self x rest)
    have h₁ : ¬ (LtOrd.ltb k x.1 = true) := by simp [LtOrd.asymm _ _ hxk]
    have h₂ : k ≠ x.1 := (ne_of_ltb hxk).symm
    obtain ⟨k', v'⟩ := x
    simp only [mapInsert]
    rw [if_neg h₁, if_neg h₂, ih (fun e he => h e (List.mem_cons_of_mem _ he))]
    rfl

theorem mapOfList_of_pairwiseKeys {α β : Type} [LtOrd α] [DecidableEq α]
    (m : List (α × β)) (h : m.Pairwise (fun e₁ e₂ => LtOrd.ltb e₁.1 e₂.1 = true)) :
    mapOfList m = m := by
  induction m using List.reverseRecOn with
  | nil => rfl
  | append_singleton l e ih =>
    rcases List.pairwise_append.mp h with ⟨hl, _, hcross⟩
    rw [mapOfList, List.foldl_append]
    have hfold : l.foldl (fun m e => mapInsert e.1 e.2 m) [] = l := by
      rw [← mapOfList]
      exact ih hl
    rw [hfold]
    simp only [List.foldl_cons, List.foldl_nil]
    exact mapInsert_of_forall_ltb e.1 e.2 l
      (fun x hx => hcross x hx e (List.mem_cons_self e []))

theorem mapLookup_mapOfList {α β : Type} [LtOrd α] [DecidableEq α] (k : α)
    (l : List (α × β)) :
    mapLookup k (mapOfList l) =
      ((l.filter (fun e => decide (e.1 = k))).getLast?).map Prod.snd := by
  induction l using List.reverseRecOn with
  | nil => rfl
  | append_singleton l e ih =>
    rw [mapOfList, List.foldl_append]
    rw [show l.foldl (fun m e => mapInsert e.1 e.2 m) [] = mapOfList l from rfl]
    simp only [List.foldl_cons, List.foldl_nil]
    by_cases h : e.1 = k
    · rw [List.filter_append]
      rw [show List.filter (fun e => decide (e.1 = k)) [e] = [e] by simp [h]]
      rw [List.getLast?_concat]
      rw [← h]
      exact mapLookup_mapInsert_self e.1 e.2 (mapOfList l)
    · rw [List.filter_append]
      rw [show List.filter (fun e => decide (e.1 = k)) [e] = [] by simp [h]]
      rw [List.append_nil]
      rw [mapLookup_mapInsert_ne e.2 (mapOfList l) (fun hk => h hk.symm)]
      exact ih

theorem getLast_max_of_pairwise {α : Type} [LtOrd α] :
    ∀ (l : List α) (q : α), l.Pairwise ltProp → l.getLast? = some q →
      ∀ r ∈ l, r = q ∨ LtOrd.ltb r q = true := by
  intro l
  induction l with
  | nil => intro q _ h; simp at h
  | cons a rest ih =>
    intro q hp h r hr
    cases rest with
    | nil =>
      simp only [List.getLast?_singleton, Option.some.injEq] at h
      rcases List.mem_cons.mp hr with hr | hr
      · exact Or.inl (hr.trans h)
      · exact absurd hr (List.not_mem_nil r)
    | cons b rest' =>
      have h' : (b :: rest').getLast? = some q := by
        rwa [List.getLast?_cons_cons] at h
      rcases List.pairwise_cons.mp hp with ⟨ha, hp'⟩
      rcases List.mem_cons.mp hr with hr | hr
      · subst hr
        exact Or.inr (ha q (List.mem_of_mem_getLast? h'))
      · exact ih q hp' h' r hr

theorem mapRemove_eq_none_iff {α β : Type} [DecidableEq α] (k : α) (m : List (α × β)) :
    mapRemove k m = none ↔ mapLookup k m = none := by
  induction m with
  | nil => simp [mapRemove, mapLookup]
  | cons e rest ih =>
    obtain ⟨k', v'⟩ := e
    simp only [mapRemove, mapLookup]
    by_cases h : k = k'
    · simp [h]
    · rw [if_neg h, if_neg h]
      cases hr : mapRemove k rest with
      | none =>
        rw [← ih]
        simp [hr]
      | some p =>
        obtain ⟨w, rest₂⟩ := p
        rw [← ih]
        simp [hr]

theorem mapRemove_some {α β : Type} [DecidableEq α] {k : α} :
    ∀ {m : List (α × β)} {v : β} {m' : List (α × β)},
      (m.map Prod.fst).Nodup → mapRemove k m = some (v, m') →
      mapLookup k m = some v ∧ m' = m.filter (fun e => decide (e.1 ≠ k)) := by
  intro m
  induction m with
  | nil => intro v m' _ h; simp [mapRemove] at h
  | cons e rest ih =>
    intro v m' hnd h
    obtain ⟨k', v'⟩ := e
    rw [List.map_cons] at hnd
    rcases List.nodup_cons.mp hnd with ⟨hk', hnd'⟩
    simp only [mapRemove] at h
    by_cases h₁ : k = k'
    · rw [if_pos h₁] at h
      simp only [Option.some.injEq, Prod.mk.injEq] at h
      obtain ⟨hv, hm⟩ := h
      subst h₁
      constructor
      · simp [mapLookup, hv]
      · rw [← hm, List.filter_cons]
        have hhead : decide ((k, v').1 ≠ k) = false := by simp
        rw [hhead]
        have htail : rest.filter (fun e => decide (e.1 ≠ k)) = rest :=
          List.filter_eq_self.mpr (fun e he => by
            simp only [decide_eq_true_eq]
            intro hek
            have hmem : e.1 ∈ rest.map Prod.fst := List.mem_map_of_mem Prod.fst he
            exact hk' (hek ▸ hmem))
        rw [htail]
        rfl
    · rw [if_neg h₁] at h
      cases hr : mapRemove k rest with
      | none =>
        rw [hr] at h
        exact Option.noConfusion h
      | some p =>
        obtain ⟨w, rest₂⟩ := p
        rw [hr] at h
        simp only [Option.some.injEq, Prod.mk.injEq] at h
        obtain ⟨hv, hm⟩ := h
        obtain ⟨hl, hf⟩ := ih hnd' hr
        constructor
        · rw [mapLookup, if_neg h₁, hl, hv]
        · rw [← hm, List.filter_cons]
          have hhead : decide ((k', v').1 ≠ k) = true := by
            simp only [decide_eq_true_eq]
            exact fun he => h₁ he.symm
          rw [hhead, hf]
          rfl

theorem mapLookup_filter_ne {α β : Type} [DecidableEq α] {k n : α} (hne : k ≠ n)
    (m : List (α × β)) :
    mapLookup k (m.filter (fun e => decide (e.1 ≠ n))) = mapLookup k m := by
  induction m with
  | nil => rfl
  | cons e rest ih =>
    obtain ⟨k', v'⟩ := e
    by_cases h : k' = n
    · subst h
      rw [show ((k', v') :: rest).filter (fun e => decide (e.1 ≠ k')) =
            rest.filter (fun e => decide (e.1 ≠ k')) by simp]
      rw [ih]
      simp [mapLookup, hne]
    · rw [show ((k', v') :: rest).filter (fun e => decide (e.1 ≠ n)) =
            (k', v') :: rest.filter (fun e => decide (e.1 ≠ n)) by simp [h]]
      by_cases h₂ : k = k'
      · simp [mapLookup, h₂]
      · simp only [mapLookup, if_neg h₂]
        exact ih

theorem filterMap_congr_mem {α β : Type} {f g : α → Option β} :
    ∀ (l : List α), (∀ a ∈ l, f a = g a) → l.filterMap f = l.filterMap g := by
  intro l
  induction l with
  | nil => intro _; rfl
  | cons a l ih =>
    intro h
    rw [List.filterMap_cons, List.filterMap_cons, h a (List.mem_cons_self a l),
      ih (fun x hx => h x (List.mem_cons_of_mem a hx))]

theorem processOld_eq :
    ∀ (old new : List (String × String)),
      (old.map Prod.fst).Nodup → (new.map Prod.fst).Nodup →
      processOld old new =
        (old.filterMap (fun e =>
            match mapLookup e.1 new with
            | some new_evr =>
              if new_evr ≠ e.2 then some (.updating e.1 e.2 new_evr) else none
            | none => some (.removing e.1 e.2)),
          new.filter (fun e => (mapLookup e.1 old).isNone)) := by
  intro old
  induction old with
  | nil =>
    intro new _ _
    simp [processOld, mapLookup, List.filter_eq_self]
  | cons oe rest ih =>
    obtain ⟨n, ev⟩ := oe
    intro new hold hnew
    rw [List.map_cons] at hold
    rcases List.nodup_cons.mp hold with ⟨hn, hold'⟩
    cases hr : mapRemove n new with
    | none =>
      have hlook : mapLookup n new = none := (mapRemove_eq_none_iff n new).mp hr
      have hfst :
          UpdateLine.removing n ev ::
              rest.filterMap (fun e =>
                match mapLookup e.1 new with
                | some new_evr =>
                  if new_evr ≠ e.2 then some (.updating e.1 e.2 new_evr) else none
                | none => some (.removing e.1 e.2)) =
            ((n, ev) :: rest).filterMap (fun e =>
              match mapLookup e.1 new with
              | some new_evr =>
                if new_evr ≠ e.2 then some (.updating e.1 e.2 new_evr) else none
              | none => some (.removing e.1 e.2)) := by
        rw [List.filterMap_cons]
        simp [hlook]
      have hsnd :
          new.filter (fun e => (mapLookup e.1 rest).isNone) =
            new.filter (fun e => (mapLookup e.1 ((n, ev) :: rest)).isNone) := by
        refine List.filter_congr ?_
        intro e he
        have hen : e.1 ≠ n := by
          intro hcontra
          have : n ∈ new.map Prod.fst := hcontra ▸ List.mem_map_of_mem Prod.fst he
          exact (mapLookup_eq_none_iff n new).mp hlook this
        rw [mapLookup, if_neg hen]
      simp only [processOld, hr, ih new hold' hnew]
      rw [Prod.mk.injEq]
      exact ⟨hfst, hsnd⟩
    | some p =>
      obtain ⟨nev, new'⟩ := p
      obtain ⟨hlook, hfilt⟩ := mapRemove_some hnew hr
      have hnd' : (new'.map Prod.fst).Nodup := by
        rw [hfilt]
        exact List.Nodup.sublist (List.Sublist.map Prod.fst (List.filter_sublist new)) hnew
      have hrestMap :
          rest.filterMap (fun e =>
              match mapLookup e.1 new' with
              | some new_evr =>
                if new_evr ≠ e.2 then some (UpdateLine.updating e.1 e.2 new_evr) else none
              | none => some (UpdateLine.removing e.1 e.2)) =
            rest.filterMap (fun e =>
              match mapLookup e.1 new with
              | some new_evr =>
                if new_evr ≠ e.2 then some (UpdateLine.updating e.1 e.2 new_evr) else none
              | none => some (UpdateLine.removing e.1 e.2)) := by
        refine filterMap_congr_mem rest ?_
        intro e he
        have hen : e.1 ≠ n := by
          intro hcontra
          have hmem : e.1 ∈ rest.map Prod.fst := List.mem_map_of_mem Prod.fst he
          exact hn (hcontra ▸ hmem)
        rw [hfilt, mapLookup_filter_ne hen]
      have hfst :
          (if nev ≠ ev then [UpdateLine.updating n ev nev] else []) ++
              rest.filterMap (fun e =>
                match mapLookup e.1 new with
                | some new_evr =>
                  if new_evr ≠ e.2 then some (.updating e.1 e.2 new_evr) else none
                | none => some (.removing e.1 e.2)) =
            ((n, ev) :: rest).filterMap (fun e =>
              match mapLookup e.1 new with
              | some new_evr =>
                if new_evr ≠ e.2 then some (.updating e.1 e.2 new_evr) else none
              | none => some (.removing e.1 e.2)) := by
        rw [List.filterMap_cons]
        by_cases hne : nev ≠ ev
        · simp [hlook, hne]
        · simp [hlook, hne]
      have hsnd :
          new'.filter (fun e => (mapLookup e.1 rest).isNone) =
            new.filter (fun e => (mapLookup e.1 ((n, ev) :: rest)).isNone) := by
        rw [hfilt, List.filter_filter]
        refine List.filter_congr ?_
        intro e _
        by_cases hen : e.1 = n
        · rw [mapLookup, if_pos hen]
          simp [hen]
        · rw [mapLookup, if_neg hen]
          simp [hen]
      simp only [processOld, hr, ih new' hold' hnd']
      rw [Prod.mk.injEq]
      refine ⟨?_, hsnd⟩
      rw [hrestMap]
      exact hfst

theorem nodupKeys_collectNameEvr (pkgs : List Package) :
    ((collectNameEvr pkgs).map Prod.fst).Nodup :=
  nodupKeys_mapOfList _

theorem keysSorted_collectNameEvr (pkgs : List Package) :
    keysSorted (collectNameEvr pkgs) = true :=
  keysSorted_mapOfList _

theorem print_updates_some_eq (lf prev : Lockfile) :
    lf.print_updates (some prev) =
      (collectNameEvr prev.packages).filterMap (fun e =>
          match mapLookup e.1 (collectNameEvr lf.packages) with
          | some new_evr =>
            if new_evr ≠ e.2 then some (UpdateLine.updating e.1 e.2 new_evr) else none
          | none => some (UpdateLine.removing e.1 e.2)) ++
        ((collectNameEvr lf.packages).filter
            (fun e => (mapLookup e.1 (collectNameEvr prev.packages)).isNone)).map
          (fun e => UpdateLine.adding e.1 e.2) := by
  have h := processOld_eq (collectNameEvr prev.packages) (collectNameEvr lf.packages)
    (nodupKeys_collectNameEvr _) (nodupKeys_collectNameEvr _)
  simp only [Lockfile.print_updates, h]

theorem print_updates_none_eq (lf : Lockfile) :
    lf.print_updates none =
      (collectNameEvr lf.packages).map (fun e => UpdateLine.adding e.1 e.2) := by
  simp [Lockfile.print_updates, processOld]

theorem Algorithm.decode_serialize (a : Algorithm) :
    Algorithm.decode (.str a.serialize) = .ok a := by
  cases a <;> rfl

theorem decodeElems_map_encode {α : Type} (dec : Toml → Except RpmError α)
    (enc : α → Toml) :
    ∀ (l : List α), (∀ a ∈ l, dec (enc a) = .ok a) →
      decodeElems dec (l.map enc) = .ok l := by
  intro l
  induction l with
  | nil => intro _; rfl
  | cons a l ih =>
    intro h
    simp only [List.map_cons, decodeElems, h a (List.mem_cons_self a l),
      ih (fun x hx => h x (List.mem_cons_of_mem a hx))]

theorem decodeStrList_encode (xs : List String) :
    decodeStrList (.arr (xs.map .str)) = .ok xs := by
  simp only [decodeStrList]
  exact decodeElems_map_encode decodeStr Toml.str xs (fun a _ => rfl)

theorem Checksum_decode_encode (c : Checksum) : Checksum.decode c.encode = .ok c := by
  obtain ⟨alg, s⟩ := c
  simp [Checksum.encode, Checksum.decode, mapLookup, Algorithm.decode_serialize, decodeStr]

theorem Package_decode_encode (p : Package) : Package.decode p.encode = .ok p := by
  obtain ⟨n, ev, ck, rid, arch⟩ := p
  cases arch with
  | none =>
    simp [Package.encode, Package.decode, mapLookup, Checksum_decode_encode, decodeStr]
  | some a =>
    simp [Package.encode, Package.decode, mapLookup, Checksum_decode_encode, decodeStr]

theorem LocalPackage_decode_encode (p : LocalPackage) :
    LocalPackage.decode p.encode = .ok p := by
  obtain ⟨n, rs⟩ := p
  simp [LocalPackage.encode, LocalPackage.decode, mapLookup, decodeStr, decodeStrList_encode]

theorem RepoKeyInfo_decode_encode (r : RepoKeyInfo) :
    RepoKeyInfo.decode r.encode = .ok r := by
  obtain ⟨g, ks⟩ := r
  simp [RepoKeyInfo.encode, RepoKeyInfo.decode, mapLookup, decodeBool, decodeStrList_encode]

theorem decodeGpgEntries_map_encode (l : List (String × RepoKeyInfo)) :
    decodeGpgEntries (l.map (fun e => (e.1, e.2.encode))) = .ok l := by
  induction l with
  | nil => rfl
  | cons e rest ih =>
    obtain ⟨k, r⟩ := e
    simp only [List.map_cons, decodeGpgEntries, RepoKeyInfo_decode_encode, ih]

theorem decodeElems_map {α β : Type} (dec : Toml → Except RpmError β)
    (enc : α → Toml) (f : α → β) :
    ∀ (l : List α), (∀ a ∈ l, dec (enc a) = .ok (f a)) →
      decodeElems dec (l.map enc) = .ok (l.map f) := by
  intro l
  induction l with
  | nil => intro _; rfl
  | cons a l ih =>
    intro h
    simp only [List.map_cons, decodeElems, h a (List.mem_cons_self a l),
      ih (fun x hx => h x (List.mem_cons_of_mem a hx))]

/-- Claim C5: writing a lockfile with the serialization of `write_to_file` and reading
the result back yields a lockfile equal in all fields, given the `BTreeSet`
and `BTreeMap` well-formedness invariants of the stored collections. -/
theorem lockfile_roundtrip (lf : Lockfile)
    (hp : isSorted lf.packages = true)
    (hl : isSorted lf.local_packages = true)
    (hg : keysSorted lf.repo_gpg_config = true) :
    Lockfile.decode lf.encode = .ok lf := by
  obtain ⟨specs, pkgs, lps, gpg, keys⟩ := lf
  have hpk : setOfList pkgs = pkgs :=
    setOfList_of_pairwise _ ((isSorted_iff_pairwise _).mp hp)
  have hlpk : setOfList lps = lps :=
    setOfList_of_pairwise _ ((isSorted_iff_pairwise _).mp hl)
  have hgpg : mapOfList gpg = gpg :=
    mapOfList_of_pairwiseKeys _ (List.pairwise_map.mp ((isSorted_iff_pairwise _).mp hg))
  have hds : decodeStrList (.arr (specs.map Toml.str)) = .ok specs :=
    decodeStrList_encode specs
  have hdk : decodeStrList (.arr (keys.map Toml.str)) = .ok keys :=
    decodeStrList_encode keys
  have hdp : decodeElems Package.decode (pkgs.map Package.encode) = .ok pkgs :=
    decodeElems_map_encode _ _ pkgs (fun a _ => Package_decode_encode a)
  have hdl : decodeElems LocalPackage.decode (lps.map LocalPackage.encode) = .ok lps :=
    decodeElems_map_encode _ _ lps (fun a _ => LocalPackage_decode_encode a)
  have hdg : decodeGpgEntries (gpg.map (fun e => (e.1, e.2.encode))) = .ok gpg :=
    decodeGpgEntries_map_encode gpg
  by_cases h1 : lps = []
  · subst h1
    by_cases h2 : gpg = []
    · subst h2
      by_cases h3 : keys = []
      · subst h3
        simp only [Lockfile.encode, Lockfile.decode, List.isEmpty_nil, reduceIte,
          String.reduceEq, List.cons_append, List.nil_append, List.append_nil,
          mapLookup, hds, hdk, hdp, hdl, hdg, hpk, hlpk, hgpg, List.map_nil]
      · have h3' : keys.isEmpty = false := by
          rw [← Bool.not_eq_true, List.isEmpty_iff]
          exact h3
        simp only [Lockfile.encode, Lockfile.decode, List.isEmpty_nil, h3', reduceIte,
          String.reduceEq, List.cons_append, List.nil_append, List.append_nil,
          mapLookup, hds, hdk, hdp, hdl, hdg, hpk, hlpk, hgpg, List.map_nil]
    · have h2' : gpg.isEmpty = false := by
        rw [← Bool.not_eq_true, List.isEmpty_iff]
        exact h2
      by_cases h3 : keys = []
      · subst h3
        simp only [Lockfile.encode, Lockfile.decode, List.isEmpty_nil, h2', reduceIte,
          String.reduceEq, List.cons_append, List.nil_append, List.append_nil,
          mapLookup, hds, hdk, hdp, hdl, hdg, hpk, hlpk, hgpg, List.map_nil]
      · have h3' : keys.isEmpty = false := by
          rw [← Bool.not_eq_true, List.isEmpty_iff]
          exact h3
        simp only [Lockfile.encode, Lockfile.decode, List.isEmpty_nil, h2', h3', reduceIte,
          String.reduceEq, List.cons_append, List.nil_append, List.append_nil,
          mapLookup, hds, hdk, hdp, hdl, hdg, hpk, hlpk, hgpg, List.map_nil]
  · have h1' : lps.isEmpty = false := by
      rw [← Bool.not_eq_true, List.isEmpty_iff]
      exact h1
    by_cases h2 : gpg = []
    · subst h2
      by_cases h3 : keys = []
      · subst h3
        simp only [Lockfile.encode, Lockfile.decode, List.isEmpty_nil, h1', reduceIte,
          String.reduceEq, List.cons_append, List.nil_append, List.append_nil,
          mapLookup, hds, hdk, hdp, hdl, hdg, hpk, hlpk, hgpg, List.map_nil]
      · have h3' : keys.isEmpty = false := by
          rw [← Bool.not_eq_true, List.isEmpty_iff]
          exact h3
        simp only [Lockfile.encode, Lockfile.decode, List.isEmpty_nil, h1', h3', reduceIte,
          String.reduceEq, List.cons_append, List.nil_append, List.append_nil,
          mapLookup, hds, hdk, hdp, hdl, hdg, hpk, hlpk, hgpg, List.map_nil]
    · have h2' : gpg.isEmpty = false := by
        rw [← Bool.not_eq_true, List.isEmpty_iff]
        exact h2
      by_cases h3 : keys = []
      · subst h3
        simp only [Lockfile.encode, Lockfile.decode, List.isEmpty_nil, h1', h2', reduceIte,
          String.reduceEq, List.cons_append, List.nil_append, List.append_nil,
          mapLookup, hds, hdk, hdp, hdl, hdg, hpk, hlpk, hgpg, List.map_nil]
      · have h3' : keys.isEmpty = false := by
          rw [← Bool.not_eq_true, List.isEmpty_iff]
          exact h3
        simp only [Lockfile.encode, Lockfile.decode, List.isEmpty_nil, h1', h2', h3', reduceIte,
          String.reduceEq, List.cons_append, List.nil_append, List.append_nil,
          mapLookup, hds, hdk, hdp, hdl, hdg, hpk, hlpk, hgpg, List.map_nil]

/-- C7: a lockfile document carrying only the mandatory `pkg_specs` and
`packages` fields - each package row itself lacking `arch` - decodes
successfully: `arch` defaults to `none` and `local_packages`,
`repo_gpg_config` and `global_key_specs` default to empty. -/
theorem decode_missing_optional_fields (specs : List String)
    (rows : List (String × String × Checksum × String)) :
    Lockfile.decode (.table
        [("pkg_specs", .arr (specs.map .str)),
         ("packages", .arr (rows.map (fun r =>
           .table [("name", .str r.1), ("evr", .str r.2.1),
                   ("checksum", r.2.2.1.encode), ("repoid", .str r.2.2.2)])))]) =
      .ok { pkg_specs := specs,
            packages := setOfList (rows.map (fun r =>
              { name := r.1, evr := r.2.1, checksum := r.2.2.1, repoid := r.2.2.2,
                arch := none })),
            local_packages := [], repo_gpg_config := [], global_key_specs := [] } := by
  have hds := decodeStrList_encode specs
  have hrow : ∀ r ∈ rows,
      Package.decode (.table [("name", .str r.1), ("evr", .str r.2.1),
          ("checksum", r.2.2.1.encode), ("repoid", .str r.2.2.2)]) =
        .ok { name := r.1, evr := r.2.1, checksum := r.2.2.1, repoid := r.2.2.2,
              arch := none } := by
    intro r _
    simp [Package.decode, mapLookup, Checksum_decode_encode, decodeStr]
  have hdp := decodeElems_map Package.decode _ _ rows hrow
  have he1 : setOfList ([] : List LocalPackage) = [] := rfl
  have he2 : mapOfList ([] : List (String × RepoKeyInfo)) = [] := rfl
  simp only [Lockfile.decode, mapLookup, String.reduceEq, reduceIte, hds, hdp, he1, he2]

theorem filterMap_names_sublist (f : (String × String) → Option UpdateLine)
    (hf : ∀ e, f e = none ∨ ∃ y, f e = some y ∧ y.lineName = e.1) :
    ∀ (l : List (String × String)),
      List.Sublist ((l.filterMap f).map UpdateLine.lineName) (l.map Prod.fst) := by
  intro l
  induction l with
  | nil => simp
  | cons e l ih =>
    rw [List.filterMap_cons]
    rcases hf e with h | ⟨y, hy, hn⟩
    · rw [h, List.map_cons]
      exact List.Sublist.cons e.1 ih
    · rw [hy, List.map_cons, List.map_cons, hn]
      exact List.Sublist.cons₂ e.1 ih

theorem print_updates_names_nodup (lf prev : Lockfile) :
    ((lf.print_updates (some prev)).map UpdateLine.lineName).Nodup := by
  have hold := nodupKeys_collectNameEvr prev.packages
  have hnew := nodupKeys_collectNameEvr lf.packages
  rw [print_updates_some_eq, List.map_append]
  have hf : ∀ e : String × String,
      (match mapLookup e.1 (collectNameEvr lf.packages) with
        | some new_evr =>
          if new_evr ≠ e.2 then some (UpdateLine.updating e.1 e.2 new_evr) else none
        | none => some (UpdateLine.removing e.1 e.2)) = none ∨
      ∃ y, (match mapLookup e.1 (collectNameEvr lf.packages) with
        | some new_evr =>
          if new_evr ≠ e.2 then some (UpdateLine.updating e.1 e.2 new_evr) else none
        | none => some (UpdateLine.removing e.1 e.2)) = some y ∧
          y.lineName = e.1 := by
    intro e
    cases hm : mapLookup e.1 (collectNameEvr lf.packages) with
    | none => exact Or.inr ⟨UpdateLine.removing e.1 e.2, rfl, rfl⟩
    | some new_evr =>
      by_cases hne : new_evr ≠ e.2
      · exact Or.inr ⟨UpdateLine.updating e.1 e.2 new_evr, by simp [hne], rfl⟩
      · exact Or.inl (by simp [hne])
  have hsub₁ := filterMap_names_sublist _ hf (collectNameEvr prev.packages)
  have hpart₂ :
      (((collectNameEvr lf.packages).filter
          (fun e => (mapLookup e.1 (collectNameEvr prev.packages)).isNone)).map
            (fun e => UpdateLine.adding e.1 e.2)).map UpdateLine.lineName =
        ((collectNameEvr lf.packages).filter
          (fun e => (mapLookup e.1 (collectNameEvr prev.packages)).isNone)).map
            Prod.fst := by
    rw [List.map_map]
    rfl
  rw [List.nodup_append]
  refine ⟨List.Nodup.sublist hsub₁ hold, ?_, ?_⟩
  · rw [hpart₂]
    exact List.Nodup.sublist
      (List.Sublist.map Prod.fst (List.filter_sublist (collectNameEvr lf.packages))) hnew
  · intro a ha₁ ha₂
    have hmem₁ : a ∈ (collectNameEvr prev.packages).map Prod.fst :=
      List.Sublist.subset hsub₁ ha₁
    rw [hpart₂] at ha₂
    rcases List.mem_map.mp ha₂ with ⟨e, hef, hea⟩
    rcases List.mem_filter.mp hef with ⟨_, hnone⟩
    rw [Option.isNone_iff_eq_none] at hnone
    rw [← hea] at hmem₁
    exact (mapLookup_eq_none_iff e.1 (collectNameEvr prev.packages)).mp hnone hmem₁

theorem mapLookup_collect_max (pkgs : List Package) (hs : isSorted pkgs = true) :
    ∀ p ∈ pkgs, ∃ q ∈ pkgs, q.name = p.name ∧
      (∀ r ∈ pkgs, r.name = p.name → LtOrd.ltb q r = false) ∧
      mapLookup p.name (collectNameEvr pkgs) = some q.evr := by
  intro p hp
  have hlook := mapLookup_mapOfList p.name (pkgs.map (fun pkg => (pkg.name, pkg.evr)))
  rw [List.filter_map, List.getLast?_map] at hlook
  have hpf : p ∈ pkgs.filter
      ((fun e : String × String => decide (e.1 = p.name)) ∘
        (fun pkg => (pkg.name, pkg.evr))) :=
    List.mem_filter.mpr ⟨hp, by simp⟩
  obtain ⟨q, hq⟩ : ∃ q, (pkgs.filter
      ((fun e : String × String => decide (e.1 = p.name)) ∘
        (fun pkg => (pkg.name, pkg.evr)))).getLast? = some q := by
    cases hgl : (pkgs.filter _).getLast? with
    | none => exact absurd (List.getLast?_eq_none_iff.mp hgl) (List.ne_nil_of_mem hpf)
    | some q => exact ⟨q, rfl⟩
  have hqf := List.mem_of_mem_getLast? hq
  rcases List.mem_filter.mp hqf with ⟨hqmem, hqpred⟩
  have hqname : q.name = p.name := by simpa using hqpred
  refine ⟨q, hqmem, hqname, ?_, ?_⟩
  · intro r hr hrname
    have hrf : r ∈ pkgs.filter
        ((fun e : String × String => decide (e.1 = p.name)) ∘
          (fun pkg => (pkg.name, pkg.evr))) :=
      List.mem_filter.mpr ⟨hr, by simpa using hrname⟩
    have hfsorted : (pkgs.filter
        ((fun e : String × String => decide (e.1 = p.name)) ∘
          (fun pkg => (pkg.name, pkg.evr)))).Pairwise ltProp :=
      List.Pairwise.sublist (List.filter_sublist pkgs) ((isSorted_iff_pairwise pkgs).mp hs)
    rcases getLast_max_of_pairwise _ q hfsorted hq r hrf with he | hlt
    · rw [he]
      exact ltb_irrefl q
    · exact LtOrd.asymm _ _ hlt
  · simp only [collectNameEvr]
    rw [hlook, hq]
    rfl

/-- Claim C1: `is_compatible_excluding_local_rpms` returns true exactly when
the stored `pkg_specs` of the lockfile equals the declared package list and the
stored `global_key_specs` equals the declared GPG key-source URL list - a
purely structural, order-sensitive comparison. -/
theorem is_compatible_excluding_iff (lf : Lockfile) (cfg : Config) :
    lf.is_compatible_excluding_local_rpms cfg = true ↔
      lf.pkg_specs = cfg.contents.packages ∧
        lf.global_key_specs = cfg.contents.gpgkeys := by
  simp [Lockfile.is_compatible_excluding_local_rpms]

/-- Witness for C1 at a concrete compatible lockfile and configuration. -/
theorem is_compatible_excluding_iff_witness :
    Lockfile.is_compatible_excluding_local_rpms exampleCompatLockfile exampleConfig = true :=
  (is_compatible_excluding_iff exampleCompatLockfile exampleConfig).mpr (by decide)

/-- Claim C2: whenever the narrower check fails, the broader check never
returns `Ok(true)`: it returns `Ok(false)` or an error. -/
theorem incompatible_never_ok_true (lf : Lockfile) (cfg : Config)
    (deps : Except RpmError (List String))
    (h : lf.is_compatible_excluding_local_rpms cfg = false) :
    lf.is_compatible_including_local_rpms cfg deps ≠ .ok true ∧
      (lf.is_compatible_including_local_rpms cfg deps = .ok false ∨
        ∃ e, lf.is_compatible_including_local_rpms cfg deps = .error e) := by
  have hval : lf.is_compatible_including_local_rpms cfg deps = .ok false := by
    simp [Lockfile.is_compatible_including_local_rpms, h]
  rw [hval]
  exact ⟨by simp, Or.inl rfl⟩

/-- Witness for C2 at a concrete incompatible lockfile and configuration. -/
theorem incompatible_never_ok_true_witness :
    Lockfile.is_compatible_including_local_rpms exampleStaleLockfile exampleConfig
        (.ok []) ≠ .ok true :=
  (incompatible_never_ok_true exampleStaleLockfile exampleConfig (.ok []) (by decide)).1

/-- Counterexample to C3 as stated: with a configuration whose declared specs
differ from the lockfile (so the narrower check fails), an unreadable local
RPM input does not produce an error - the function returns `Ok(false)`. -/
theorem read_error_counterexample :
    Lockfile.is_compatible_including_local_rpms exampleStaleLockfile exampleConfig
        (.error "cannot read local RPM") = .ok false := by
  rfl

/-- Claim C3 (amended): when the excluding check passes, a read/parse failure
of the local RPM inputs is propagated as an error rather than `Ok(false)`. -/
theorem read_error_propagates (lf : Lockfile) (cfg : Config) (e : RpmError)
    (h : lf.is_compatible_excluding_local_rpms cfg = true) :
    lf.is_compatible_including_local_rpms cfg (.error e) = .error e := by
  simp [Lockfile.is_compatible_including_local_rpms, h]

/-- Witness for the amended C3 at a concrete compatible pair. -/
theorem read_error_propagates_witness :
    Lockfile.is_compatible_including_local_rpms exampleCompatLockfile exampleConfig
        (.error "io error") = .error "io error" :=
  read_error_propagates exampleCompatLockfile exampleConfig "io error" (by decide)

/-- Claim C9: when the excluding check fails, `&&` short-circuits before
`read_local_rpm_deps` is consulted, so the result is `Ok(false)` regardless
of whether the local RPM inputs are readable - it can never be an error. -/
theorem short_circuit_when_excluding_false (lf : Lockfile) (cfg : Config)
    (deps : Except RpmError (List String))
    (h : lf.is_compatible_excluding_local_rpms cfg = false) :
    lf.is_compatible_including_local_rpms cfg deps = .ok false := by
  simp [Lockfile.is_compatible_including_local_rpms, h]

/-- Witness for C9: even an unreadable local RPM input yields `Ok(false)`
when the narrower check already fails. -/
theorem short_circuit_when_excluding_false_witness :
    Lockfile.is_compatible_including_local_rpms exampleStaleLockfile exampleConfig
        (.error "unreadable") = .ok false :=
  short_circuit_when_excluding_false exampleStaleLockfile exampleConfig
    (.error "unreadable") (by decide)

/-- Claim C4: given the excluding check passes and the local RPM inputs are
readable (yielding the canonical set `deps`), the result is `Ok(true)` iff
`deps` is set-equal to the union of the requires of the stored local packages;
moreover the outcome depends on the stored local packages only through that
flattened requirement set (per-package attribution, duplicates and order are
irrelevant - and no local version is stored at all). -/
theorem including_set_semantics (lf : Lockfile) (cfg : Config) (deps : List String)
    (hcompat : lf.is_compatible_excluding_local_rpms cfg = true)
    (hsorted : isSorted deps = true) :
    (lf.is_compatible_including_local_rpms cfg (.ok deps) = .ok true ↔
      ∀ s, s ∈ deps ↔ ∃ p ∈ lf.local_packages, s ∈ p.requires) ∧
    (∀ lps : List LocalPackage,
      (∀ s, (∃ p ∈ lps, s ∈ p.requires) ↔ ∃ p ∈ lf.local_packages, s ∈ p.requires) →
      Lockfile.is_compatible_including_local_rpms { lf with local_packages := lps } cfg
          (.ok deps) =
        lf.is_compatible_including_local_rpms cfg (.ok deps)) := by
  have hval : ∀ L : List LocalPackage,
      Lockfile.is_compatible_including_local_rpms { lf with local_packages := L } cfg
          (.ok deps) =
        .ok (deps == setOfList ((L.map LocalPackage.requires).flatten)) := by
    intro L
    have hc : Lockfile.is_compatible_excluding_local_rpms
        { lf with local_packages := L } cfg = true := hcompat
    simp [Lockfile.is_compatible_including_local_rpms, hc]
  have hval0 : lf.is_compatible_including_local_rpms cfg (.ok deps) =
      .ok (deps == setOfList ((lf.local_packages.map LocalPackage.requires).flatten)) := by
    simp [Lockfile.is_compatible_including_local_rpms, hcompat]
  have hmem : ∀ (L : List LocalPackage) (s : String),
      s ∈ setOfList ((L.map LocalPackage.requires).flatten) ↔
        ∃ p ∈ L, s ∈ p.requires := by
    intro L s
    rw [mem_setOfList, List.mem_flatten]
    constructor
    · rintro ⟨l, hl, hsl⟩
      rcases List.mem_map.mp hl with ⟨p, hp, hpl⟩
      exact ⟨p, hp, hpl ▸ hsl⟩
    · rintro ⟨p, hp, hs⟩
      exact ⟨p.requires, List.mem_map_of_mem LocalPackage.requires hp, hs⟩
  constructor
  · rw [hval0]
    constructor
    · intro h s
      have hbeq : deps =
          setOfList ((lf.local_packages.map LocalPackage.requires).flatten) := by
        simpa using h
      rw [hbeq]
      exact hmem lf.local_packages s
    · intro h
      have hdeq : deps =
          setOfList ((lf.local_packages.map LocalPackage.requires).flatten) :=
        sorted_ext deps _ ((isSorted_iff_pairwise deps).mp hsorted)
          (pairwise_setOfList _)
          (fun s => (h s).trans (hmem lf.local_packages s).symm)
      rw [hdeq]
      simp
  · intro lps hiff
    rw [hval lps, hval0]
    have hseteq : setOfList ((lps.map LocalPackage.requires).flatten) =
        setOfList ((lf.local_packages.map LocalPackage.requires).flatten) :=
      sorted_ext _ _ (pairwise_setOfList _) (pairwise_setOfList _)
        (fun s => ((hmem lps s).trans ((hiff s).trans (hmem lf.local_packages s).symm)))
    rw [hseteq]

/-- Witness for C4 at a concrete compatible lockfile with one local package
and the matching recomputed requirement set. -/
theorem including_set_semantics_witness :
    Lockfile.is_compatible_including_local_rpms exampleCompatLockfile exampleConfig
        (.ok ["liba", "libb"]) = .ok true :=
  (including_set_semantics exampleCompatLockfile exampleConfig ["liba", "libb"]
      (by decide) (by decide)).1.mpr (by
    intro s
    simp [exampleCompatLockfile])

/-- Witness for C5 at a lockfile populating every field. -/
theorem lockfile_roundtrip_witness :
    Lockfile.decode exampleFullLockfile.encode = .ok exampleFullLockfile :=
  lockfile_roundtrip exampleFullLockfile (by decide) (by decide) (by decide)

/-- Claim C6: `print_updates` classifies names through the name-to-evr maps
of both package sets - entries of the previous map are reported first, as an
update when the name survives with a different evr, as a removal when it is
gone, and unchanged names are silent; the leftovers of the new map are then
reported as additions.  Both maps iterate in name-sorted order, a missing
previous lockfile behaves as an empty one, and on the worked example
{A@1.0, B@2.0} to {A@1.1, C@3.0} the emitted lines are exactly
"Updating A 1.0 -> 1.1", "Removing B 2.0", "Adding C 3.0". -/
theorem print_updates_spec :
    (∀ (lf prev : Lockfile),
      lf.print_updates (some prev) =
        (collectNameEvr prev.packages).filterMap (fun e =>
            match mapLookup e.1 (collectNameEvr lf.packages) with
            | some new_evr =>
              if new_evr ≠ e.2 then some (UpdateLine.updating e.1 e.2 new_evr) else none
            | none => some (UpdateLine.removing e.1 e.2)) ++
          ((collectNameEvr lf.packages).filter
              (fun e => (mapLookup e.1 (collectNameEvr prev.packages)).isNone)).map
            (fun e => UpdateLine.adding e.1 e.2)) ∧
    (∀ lf : Lockfile, lf.print_updates none =
        (collectNameEvr lf.packages).map (fun e => UpdateLine.adding e.1 e.2)) ∧
    (∀ pkgs : List Package, keysSorted (collectNameEvr pkgs) = true) ∧
    ((exampleNew.print_updates (some examplePrev)).map UpdateLine.render =
      [("Updating", "A 1.0 -> 1.1"), ("Removing", "B 2.0"), ("Adding", "C 3.0")]) :=
  ⟨print_updates_some_eq, print_updates_none_eq, keysSorted_collectNameEvr, by decide⟩

/-- Claim C8: the content produced by a successful `write_to_file` is exactly
the two-line generated-by header followed by the serialized aggregate, and
every failing step - file creation, either write, or serialization - makes
the whole call return the error of that step instead of success. -/
theorem write_to_file_spec :
    (lockfileHeader =
      "# This file is @generated by RPMOCI\n# It is not intended for manual editing.\n") ∧
    (lockfileHeader.data.count '\n' = 2) ∧
    (∀ (lf : Lockfile) (c wh wb : Except RpmError Unit) (ser : Except RpmError String)
        (r : String), lf.write_to_file c wh ser wb = .ok r →
        ∃ body, ser = .ok body ∧ r = lockfileHeader ++ body) ∧
    (∀ (lf : Lockfile) (e : RpmError) (wh wb : Except RpmError Unit)
        (ser : Except RpmError String),
      lf.write_to_file (.error e) wh ser wb = .error e) ∧
    (∀ (lf : Lockfile) (e : RpmError) (wb : Except RpmError Unit)
        (ser : Except RpmError String),
      lf.write_to_file (.ok ()) (.error e) ser wb = .error e) ∧
    (∀ (lf : Lockfile) (e : RpmError) (wb : Except RpmError Unit),
      lf.write_to_file (.ok ()) (.ok ()) (.error e) wb = .error e) ∧
    (∀ (lf : Lockfile) (e : RpmError) (body : String),
      lf.write_to_file (.ok ()) (.ok ()) (.ok body) (.error e) = .error e) := by
  refine ⟨by decide, by decide, ?_, fun _ _ _ _ _ => rfl, fun _ _ _ _ => rfl,
    fun _ _ _ => rfl, fun _ _ _ => rfl⟩
  intro lf c wh wb ser r h
  cases c with
  | error e => simp [Lockfile.write_to_file] at h
  | ok u =>
    cases wh with
    | error e => simp [Lockfile.write_to_file] at h
    | ok u₂ =>
      cases ser with
      | error e => simp [Lockfile.write_to_file] at h
      | ok body =>
        cases wb with
        | error e => simp [Lockfile.write_to_file] at h
        | ok u₃ =>
          refine ⟨body, rfl, ?_⟩
          simp only [Lockfile.write_to_file, Except.ok.injEq] at h
          exact h.symm

/-- Witness for C8: a failed file creation at a concrete lockfile propagates
the error. -/
theorem write_to_file_spec_witness :
    Lockfile.write_to_file exampleStaleLockfile (.error "io error") (.ok ())
        (.ok "pkg_specs = []") (.ok ()) = .error "io error" :=
  write_to_file_spec.2.2.2.1 exampleStaleLockfile "io error" (.ok ()) (.ok ())
    (.ok "pkg_specs = []")

/-- Claim C10: `print_updates` collapses each package set to one entry per
name - over a well-formed (sorted) `BTreeSet` the map retains, for every
name, the evr of the greatest package bearing that name - and the emitted
lines mention each name at most once. -/
theorem print_updates_dedup (lf prev : Lockfile)
    (hl : isSorted lf.packages = true) (hp : isSorted prev.packages = true) :
    ((lf.print_updates (some prev)).map UpdateLine.lineName).Nodup ∧
    (∀ p ∈ lf.packages, ∃ q ∈ lf.packages, q.name = p.name ∧
        (∀ r ∈ lf.packages, r.name = p.name → LtOrd.ltb q r = false) ∧
        mapLookup p.name (collectNameEvr lf.packages) = some q.evr) ∧
    (∀ p ∈ prev.packages, ∃ q ∈ prev.packages, q.name = p.name ∧
        (∀ r ∈ prev.packages, r.name = p.name → LtOrd.ltb q r = false) ∧
        mapLookup p.name (collectNameEvr prev.packages) = some q.evr) :=
  ⟨print_updates_names_nodup lf prev, mapLookup_collect_max lf.packages hl,
    mapLookup_collect_max prev.packages hp⟩

/-- Witness for C10 at a lockfile whose set holds two same-named packages:
every emitted line reports a distinct name. -/
theorem print_updates_dedup_witness :
    ((exampleDupLockfile.print_updates (some examplePrev)).map
        UpdateLine.lineName).Nodup :=
  (print_updates_dedup exampleDupLockfile examplePrev (by decide) (by decide)).1

end Rpmoci
